import Mathlib

/-!
# cron-manager-cli: the schedule console of `main.go`

A shallow embedding of `listCronJobs`, `addCronJob` and `removeCronJob`.

Modelling conventions.

* A Go string is a list of runes (`Str`); the text is taken to be valid UTF-8.
* The boundary with the operating system is the `os/exec` call.  A run of
  `crontab -l` is given by its standard output and by the text of the error
  `cmd.Output()` returned, if any (`ReadResult`).  A run of
  `bash -c "echo '<text>' | crontab -"` is recorded as the event
  `Event.crontabWrite text`, where `text` is the string the program
  interpolates into the command line; its outcome is the text of the error
  `cmd.Run()` returned, if any.
* What lies behind the two calls is described apart from the program:
  `cmdOutput` gives the answer of `cmd.Output()` for a finished process, and
  `crontabStdin` what bash hands to `crontab -` for an interpolated text.
* Every prompt reads one line from the terminal with `ReadString('\n')`
  (`readString`); the functions take the lines read.
* `int` is 64 bits wide.
-/

namespace CronManager

/-- A Go string, as its sequence of runes. -/
abbrev Str := List Char

/-! ## Library functions used by the program -/

/-- Rune test `unicode.IsSpace`: the white space of Latin-1 and the code points
with the Unicode White_Space property. -/
def isSpace (c : Char) : Bool :=
  let n := c.toNat
  (9 ≤ n && n ≤ 13) || n == 0x20 || n == 0x85 || n == 0xA0 || n == 0x1680 ||
    (0x2000 ≤ n && n ≤ 0x200A) || n == 0x2028 || n == 0x2029 || n == 0x202F ||
    n == 0x205F || n == 0x3000

/-- Go `strings.TrimSpace`: leading white space is cut, then trailing white space. -/
def trimSpace (s : Str) : Str :=
  (s.dropWhile isSpace).rdropWhile isSpace

/-- Rune map `unicode.ToLower` on the runes whose image is an ASCII letter: the
capitals `A`..`Z`, U+0130 and U+212A.  Every other rune is left as it is here;
Go sends the remaining capitals to runes outside ASCII, so a comparison of the
lowered text with an ASCII word has the same outcome. -/
def toLowerRune : Char → Char
  | 'A' => 'a' | 'B' => 'b' | 'C' => 'c' | 'D' => 'd' | 'E' => 'e' | 'F' => 'f'
  | 'G' => 'g' | 'H' => 'h' | 'I' => 'i' | 'J' => 'j' | 'K' => 'k' | 'L' => 'l'
  | 'M' => 'm' | 'N' => 'n' | 'O' => 'o' | 'P' => 'p' | 'Q' => 'q' | 'R' => 'r'
  | 'S' => 's' | 'T' => 't' | 'U' => 'u' | 'V' => 'v' | 'W' => 'w' | 'X' => 'x'
  | 'Y' => 'y' | 'Z' => 'z' | '\u0130' => 'i' | '\u212A' => 'k'
  | c => c

/-- Go `strings.ToLower`. -/
def toLower (s : Str) : Str := s.map toLowerRune

/-- Go `strings.HasPrefix`. -/
def startsWith : Str → Str → Bool
  | _, [] => true
  | [], _ :: _ => false
  | c :: cs, p :: ps => c == p && startsWith cs ps

/-- Go `strings.Contains`. -/
def contains : Str → Str → Bool
  | [], sub => sub.isEmpty
  | c :: cs, sub => startsWith (c :: cs) sub || contains cs sub

/-- First piece of a text cut at newlines, and the pieces after it. -/
def splitAux : Str → Str × List Str
  | [] => ([], [])
  | c :: cs =>
    if c = '\n' then ([], (splitAux cs).1 :: (splitAux cs).2)
    else (c :: (splitAux cs).1, (splitAux cs).2)

/-- Go `strings.Split(s, "\n")`: the pieces between newlines; the empty text
gives one empty piece. -/
def split (s : Str) : List Str :=
  (splitAux s).1 :: (splitAux s).2

/-- Go `strings.Join(elems, "\n")`. -/
def join : List Str → Str
  | [] => []
  | [a] => a
  | a :: b :: rest => a ++ '\n' :: join (b :: rest)

/-- Value of a decimal digit. -/
def digitVal : Char → Option Nat
  | '0' => some 0 | '1' => some 1 | '2' => some 2 | '3' => some 3 | '4' => some 4
  | '5' => some 5 | '6' => some 6 | '7' => some 7 | '8' => some 8 | '9' => some 9
  | _ => none

/-- The digit loop of `strconv.Atoi`: base 10, no underscores. -/
def parseDigits : Str → Nat → Option Nat
  | [], acc => some acc
  | c :: cs, acc =>
    match digitVal c with
    | none => none
    | some d => parseDigits cs (acc * 10 + d)

/-- Unsigned part of `strconv.Atoi`: at least one digit. -/
def parseUnsigned (ds : Str) : Option Nat :=
  if ds = [] then none else parseDigits ds 0

/-- Go `strconv.Atoi` for a 64-bit `int`: an optional sign and decimal digits;
`none` stands for a syntax or range error. -/
def atoi (s : Str) : Option Int :=
  match s with
  | [] => none
  | c :: cs =>
    if c = '-' then
      match parseUnsigned cs with
      | some n => if n ≤ 2 ^ 63 then some (-(n : Int)) else none
      | none => none
    else if c = '+' then
      match parseUnsigned cs with
      | some n => if n < 2 ^ 63 then some (n : Int) else none
      | none => none
    else
      match parseUnsigned (c :: cs) with
      | some n => if n < 2 ^ 63 then some (n : Int) else none
      | none => none

/-- Go `bufio.Reader.ReadString('\n')` on the pending terminal input: the text
up to and including the first newline (all of it at end of input), and what
is left of the stream. -/
def readString : Str → Str × Str
  | [] => ([], [])
  | c :: cs =>
    if c = '\n' then (['\n'], cs)
    else (c :: (readString cs).1, (readString cs).2)

/-! ## Observable behaviour -/

/-- A table row: `table.Row{"-", "No current cron jobs"}` or
`table.Row{n, job}`. -/
inductive Row
  | placeholder
  | numbered (n : Nat) (job : Str)
deriving DecidableEq

/-- What a run of the program does, in order. -/
inductive Event
  /-- Call `t.Render()` on a table with this title and these rows. -/
  | table (title : String) (rows : List Row)
  /-- Call `fmt.Println`, `fmt.Print` or the builtin `println`. -/
  | say (msg : String)
  /-- Call `printExampleCommands()`. -/
  | exampleCommands
  /-- Call `printCronSyntaxTable()`. -/
  | helpTables
  /-- Run `bash -c "echo '<text>' | crontab -"`. -/
  | crontabWrite (text : Str)
deriving DecidableEq

/-- The texts handed to the store, in order. -/
def writes : List Event → List Str
  | [] => []
  | Event.crontabWrite t :: rest => t :: writes rest
  | _ :: rest => writes rest

/-- Outcome of `exec.Command("crontab", "-l").Output()`. -/
structure ReadResult where
  /-- Standard output of the command. -/
  output : Str
  /-- The text `err.Error()`, when `err != nil`. -/
  err : Option Str
deriving DecidableEq

/-- The store answered that no schedule exists, as the program detects it. -/
def noCrontab (e : Str) : Bool := contains e "no crontab for".toList

/-! ## `listCronJobs` -/

/-- The `for _, job := range cronJobs` loop of `listCronJobs`, started with
the current `count` and the rows appended so far. -/
def listLoop : List Str → Nat → List Row → Nat × List Row
  | [], count, rows => (count, rows)
  | job :: rest, count, rows =>
    let trimmedJob := trimSpace job
    if trimmedJob ≠ [] then
      listLoop rest (count + 1) (rows ++ [Row.numbered (count + 1) trimmedJob])
    else listLoop rest count rows

/-- Rows appended by `listCronJobs` after a successful read. -/
def listRows (output : Str) : List Row :=
  let outputStr := trimSpace output
  if outputStr = [] then [Row.placeholder]
  else
    let r := listLoop (split outputStr) 0 []
    if r.1 = 0 then r.2 ++ [Row.placeholder] else r.2

/-- Function `listCronJobs`. -/
def listCronJobs (r : ReadResult) : List Event :=
  match r.err with
  | some e =>
    if noCrontab e then [Event.table "Current Cron Jobs" [Row.placeholder]]
    else [Event.say ("Error fetching cron jobs: " ++ String.mk e)]
  | none => [Event.say "\n", Event.table "Current Cron Jobs" (listRows r.output)]

/-! ## `addCronJob` -/

/-- Lines 100-118 of `addCronJob`: fetch, append, write back, report. -/
def addEntry (r : ReadResult) (w : Option Str) (cronJob : Str) : List Event :=
  let currentCronJobs := match r.err with
    | none => r.output
    | some _ => []
  let updatedCronJobs := currentCronJobs ++ '\n' :: cronJob
  [Event.crontabWrite updatedCronJobs,
    match w with
    | some e => Event.say ("Error updating cron jobs: " ++ String.mk e)
    | none => Event.say "Cron job added successfully!"]

/-- What each turn of the `addCronJob` loop shows before it reads a line. -/
def addPrompt (r : ReadResult) : List Event :=
  listCronJobs r ++
    [Event.say "\n", Event.exampleCommands,
      Event.say "\nEnter 'help' for detailed cron syntax information.",
      Event.say "Enter 'back' to return to the main menu.",
      Event.say "\nEnter a new cron job:", Event.say "\n> "]

/-- One turn of the `addCronJob` loop on the line just read: the events of
the turn, and whether the loop goes round again. -/
def addTurn (r : ReadResult) (w : Option Str) (line : Str) : List Event × Bool :=
  let cronJob := trimSpace line
  if toLower cronJob = "help".toList then (addPrompt r ++ [Event.helpTables], true)
  else if toLower cronJob = "back".toList then (addPrompt r, false)
  else (addPrompt r ++ addEntry r w cronJob, false)

/-- Function `addCronJob`, for store answer `r`, write outcome `w` and the
lines the successive prompts read from the terminal.  When the terminal has
nothing more to give, `ReadString` returns the empty text. -/
def addCronJob (r : ReadResult) (w : Option Str) : List Str → List Event
  | [] => (addTurn r w []).1
  | line :: rest =>
    if (addTurn r w line).2 then (addTurn r w line).1 ++ addCronJob r w rest
    else (addTurn r w line).1

/-! ## `removeCronJob` -/

/-- The `for _, job := range cronJobs` loop of `removeCronJob`, started with
the `validJobs` collected so far. -/
def collectValid : List Str → List Str → List Str
  | [], validJobs => validJobs
  | job :: rest, validJobs =>
    let trimmedJob := trimSpace job
    if trimmedJob ≠ [] then collectValid rest (validJobs ++ [trimmedJob])
    else collectValid rest validJobs

/-- The `for i, job := range validJobs` loop of `removeCronJob`: the rows
for the jobs from position `i` on. -/
def numberRows : List Str → Nat → List Row
  | [], _ => []
  | job :: rest, i => Row.numbered (i + 1) job :: numberRows rest (i + 1)

/-- Lines 235-267 of `removeCronJob`: prompt, parse the choice, delete, write
back, report. -/
def removeChoice (validJobs : List Str) (w : Option Str) (line : Str) : List Event :=
  let input := trimSpace line
  let asked := [Event.say "\nEnter the number (#) of the job to remove.",
    Event.say "Enter 'back' to return to the main menu.", Event.say "\n> "]
  if toLower input = "back".toList then asked
  else
    match atoi input with
    | none => asked ++ [Event.say "Invalid choice!"]
    | some choice =>
      if choice < 1 ∨ choice > (validJobs.length : Int) then
        asked ++ [Event.say "Invalid choice!"]
      else
        let kept := validJobs.take (choice.toNat - 1) ++ validJobs.drop choice.toNat
        let updatedCronJobs := join kept
        asked ++ [Event.crontabWrite updatedCronJobs,
          match w with
          | some e => Event.say ("Error updating cron jobs: " ++ String.mk e)
          | none => Event.say "Cron job removed successfully!"]

/-- Function `removeCronJob`, for store answer `r`, write outcome `w` and the
line the prompt reads from the terminal. -/
def removeCronJob (r : ReadResult) (w : Option Str) (line : Str) : List Event :=
  match r.err with
  | some e =>
    if noCrontab e then
      [Event.say "\n", Event.table "Remove Cron Jobs" [Row.placeholder]]
    else [Event.say "\n", Event.say ("Error fetching cron jobs: " ++ String.mk e)]
  | none =>
    let outputStr := trimSpace r.output
    if outputStr = [] then
      [Event.say "\n", Event.table "Remove Cron Jobs" [Row.placeholder]]
    else
      let validJobs := collectValid (split outputStr) []
      if validJobs.length = 0 then
        [Event.say "\n", Event.table "Remove Cron Jobs" [Row.placeholder]]
      else
        [Event.say "\n", Event.table "Remove Cron Jobs" (numberRows validJobs 0)] ++
          removeChoice validJobs w line

/-! ## The vocabulary of the specification -/

/-- The entry sequence of a text: split on newlines, every line trimmed, blank
lines dropped. -/
def entrySeq (s : Str) : List Str :=
  ((split s).map trimSpace).filter (fun l => l ≠ [])

/-- The text the store holds, as the specification reads a store answer: the
output of a successful read, the empty text for a store that reports no
schedule, and nothing when the read failed for another reason. -/
def storeText (r : ReadResult) : Option Str :=
  match r.err with
  | none => some r.output
  | some e => if noCrontab e then some [] else none

/-- The rows a listing of the entries `es` is to show: one row for each entry,
numbered from 1 in the order of the entries. -/
def numberedFromOne (es : List Str) : List Row :=
  List.zipWith Row.numbered (List.range' 1 es.length) es

/-- The row lists of the tables rendered, in order. -/
def tables : List Event → List (List Row)
  | [] => []
  | Event.table _ rows :: rest => rows :: tables rest
  | _ :: rest => tables rest

/-- A spelling of the word "back" in capitals and small letters. -/
def spellsBack : Str → Bool
  | [a, b, c, d] =>
    (a == 'b' || a == 'B') && (b == 'a' || b == 'A') && (c == 'c' || c == 'C') &&
      (d == 'k' || d == 'K')
  | _ => false

/-! ## The programs behind the `os/exec` calls -/

/-- A finished run of `crontab -l`: what it printed and its exit status. -/
structure Run where
  /-- Standard output of the process. -/
  stdout : Str
  /-- Standard error of the process. -/
  stderr : Str
  /-- Exit status of the process. -/
  status : Nat
deriving DecidableEq

/-- Go `cmd.Output()` on a finished run: the standard output, and for a
non-zero exit status an `*exec.ExitError`, whose `Error()` is the text
`exit status N`.  The standard error is kept in the field `Stderr` of the error
and is no part of `Error()`. -/
def cmdOutput (p : Run) : ReadResult :=
  ⟨p.stdout,
    if p.status = 0 then none else some ("exit status ".toList ++ Nat.toDigits 10 p.status)⟩

/-- The single quote. -/
def quote : Char := Char.ofNat 39

/-- The command line `fmt.Sprintf("echo '%s' | crontab -", text)`. -/
def writeCommand (text : Str) : Str :=
  "echo ".toList ++ [quote] ++ text ++ [quote] ++ " | crontab -".toList

/-- Runes that bash reads as themselves outside quotes, as far as this
description goes: ASCII letters and digits and `_ - . /`. -/
def isPlain (c : Char) : Bool :=
  c.isAlphanum || c == '_' || c == '-' || c == '.' || c == '/'

/-- An argument the `echo` of bash takes for options: a dash and then only
letters out of `n`, `e`, `E`. -/
def isEchoOption : Str → Bool
  | '-' :: c :: cs => (c :: cs).all fun x => x == 'n' || x == 'e' || x == 'E'
  | _ => false

/-- What the `echo` of bash prints when given one argument: the argument and a
newline, unless the argument is taken for options. -/
def echoOut (arg : Str) : Str :=
  if isEchoOption arg then (if 'n' ∈ arg then [] else ['\n']) else arg ++ ['\n']

/-- What bash makes of the command line `echo '<text>' | crontab -`. -/
inductive Piped
  /-- The pipeline runs and `crontab -` reads this on its standard input. -/
  | stdin (text : Str)
  /-- A quote is left open at the end of the command line: bash reports an
  unexpected end of file and runs nothing. -/
  | unterminated
  /-- The text leaves the quotes with a rune that is not plain; what bash does
  then is not described here. -/
  | other
deriving DecidableEq

/-- Bash reading `<text>' | crontab -`, the command line after `echo '`.
`inQuote` tells whether a single quote is open; `acc` holds, in reverse, the
argument of `echo` read so far.  Inside quotes every rune stands for itself and
a quote closes; outside, a quote opens and a plain rune joins the argument.  At
the end of the text comes the quote of the format string: it closes an open
quote, or opens one that nothing closes. -/
def scanQuoted : Str → Bool → Str → Piped
  | [], true, acc => Piped.stdin (echoOut acc.reverse)
  | [], false, _ => Piped.unterminated
  | c :: cs, true, acc =>
    if c = quote then scanQuoted cs false acc else scanQuoted cs true (c :: acc)
  | c :: cs, false, acc =>
    if c = quote then scanQuoted cs true acc
    else if isPlain c then scanQuoted cs false (c :: acc)
    else Piped.other

/-- What `bash -c "echo '<text>' | crontab -"` hands to `crontab -`, which
takes its standard input for the new schedule. -/
def crontabStdin (text : Str) : Piped := scanQuoted text true []

/-! ## Facts about the library functions -/

theorem isSpace_newline : isSpace '\n' = true := by decide

theorem trimSpace_nil : trimSpace [] = [] := by
  simp [trimSpace, List.rdropWhile]

theorem mem_of_mem_trimSpace {c : Char} {s : Str} (h : c ∈ trimSpace s) : c ∈ s :=
  (List.dropWhile_suffix isSpace).subset ((List.rdropWhile_prefix isSpace _).subset h)

theorem trimSpace_eq_nil_iff (s : Str) : trimSpace s = [] ↔ ∀ c ∈ s, isSpace c = true := by
  unfold trimSpace
  rw [List.rdropWhile_eq_nil_iff]
  constructor
  · intro h
    by_cases hd : s.dropWhile isSpace = []
    · exact List.dropWhile_eq_nil_iff.mp hd
    · exact absurd (h _ (List.head_mem hd)) (by simpa using List.head_dropWhile_not isSpace s hd)
  · intro h c hc
    exact h c ((List.dropWhile_suffix isSpace).subset hc)

theorem trimSpace_cons_space {c : Char} (hc : isSpace c = true) (s : Str) :
    trimSpace (c :: s) = trimSpace s := by
  simp [trimSpace, List.dropWhile_cons_of_pos hc]

theorem trimSpace_append_space {c : Char} (hc : isSpace c = true) (s : Str) :
    trimSpace (s ++ [c]) = trimSpace s := by
  unfold trimSpace
  rw [List.dropWhile_append]
  split
  · rename_i h
    have h2 : s.dropWhile isSpace = [] := by simpa using h
    simp [h2, hc, List.rdropWhile_nil]
  · exact List.rdropWhile_concat_pos _ _ _ hc

theorem trimSpace_idem (s : Str) : trimSpace (trimSpace s) = trimSpace s := by
  have key : (trimSpace s).dropWhile isSpace = trimSpace s := by
    obtain ⟨t, ht⟩ : trimSpace s <+: s.dropWhile isSpace := List.rdropWhile_prefix isSpace _
    cases hts : trimSpace s with
    | nil => rfl
    | cons a u =>
      rw [hts] at ht
      have hd : s.dropWhile isSpace ≠ [] := by rw [← ht]; simp
      have hn := List.head_dropWhile_not isSpace s hd
      have e : (s.dropWhile isSpace).head hd = a := by simp [← ht]
      rw [e] at hn
      exact List.dropWhile_cons_of_neg (by simp [hn])
  show ((trimSpace s).dropWhile isSpace).rdropWhile isSpace = trimSpace s
  rw [key]
  exact List.rdropWhile_idempotent isSpace _

theorem trimSpace_pad (pre post w : Str) (hpre : ∀ c ∈ pre, isSpace c = true)
    (hpost : ∀ c ∈ post, isSpace c = true) :
    trimSpace (pre ++ w ++ post) = trimSpace w := by
  induction post using List.reverseRecOn with
  | nil =>
    simp only [List.append_nil]
    induction pre with
    | nil => rfl
    | cons a pre ih =>
      rw [List.cons_append, trimSpace_cons_space (hpre a (List.mem_cons_self _ _))]
      exact ih (fun c hc => hpre c (List.mem_cons_of_mem _ hc))
  | append_singleton post a ih =>
    rw [← List.append_assoc, trimSpace_append_space (hpost a (by simp))]
    exact ih (fun c hc => hpost c (by simp [hc]))

theorem split_append_newline (a b : Str) : split (a ++ '\n' :: b) = split a ++ split b := by
  induction a with
  | nil => simp [split, splitAux]
  | cons c a ih =>
    simp only [split, List.cons_append, splitAux] at ih ⊢
    have h1 := (List.cons.inj ih).1
    have h2 := (List.cons.inj ih).2
    by_cases hc : c = '\n'
    · simp [hc, h1, h2]
    · simp [hc, h1, h2]

theorem splitAux_of_no_newline (s : Str) (h : '\n' ∉ s) : splitAux s = (s, []) := by
  induction s with
  | nil => rfl
  | cons c s ih =>
    have hc : c ≠ '\n' := fun e => h (by simp [e])
    have hs : '\n' ∉ s := fun e => h (List.mem_cons_of_mem _ e)
    simp [splitAux, hc, ih hs]

theorem split_of_no_newline (s : Str) (h : '\n' ∉ s) : split s = [s] := by
  simp [split, splitAux_of_no_newline s h]

theorem no_newline_of_mem_split (s l : Str) (hl : l ∈ split s) : '\n' ∉ l := by
  induction s generalizing l with
  | nil => simp [split, splitAux] at hl; simp [hl]
  | cons c s ih =>
    simp only [split, splitAux] at hl ih
    by_cases hc : c = '\n'
    · simp only [hc, if_true, List.mem_cons] at hl
      rcases hl with h | h
      · simp [h]
      · exact ih l (List.mem_cons.mpr h)
    · simp only [hc, if_false, List.mem_cons] at hl
      rcases hl with h | h
      · rw [h]
        intro hm
        rcases List.mem_cons.mp hm with e | e
        · exact hc e.symm
        · exact ih _ (List.mem_cons_self _ _) e
      · exact ih l (List.mem_cons_of_mem _ h)

theorem exists_mem_split (s : Str) (c : Char) (hc : c ∈ s) (hn : c ≠ '\n') :
    ∃ l ∈ split s, c ∈ l := by
  induction s with
  | nil => simp at hc
  | cons d s ih =>
    simp only [split, splitAux] at ih ⊢
    by_cases hd : d = '\n'
    · have hcs : c ∈ s := by
        rcases List.mem_cons.mp hc with e | e
        · exact absurd (e.trans hd) hn
        · exact e
      obtain ⟨l, hl, hcl⟩ := ih hcs
      exact ⟨l, by simp only [hd, if_true]; exact List.mem_cons_of_mem _ hl, hcl⟩
    · simp only [hd, if_false]
      rcases List.mem_cons.mp hc with e | e
      · exact ⟨_, List.mem_cons_self _ _, by simp [e]⟩
      · obtain ⟨l, hl, hcl⟩ := ih e
        rcases List.mem_cons.mp hl with h | h
        · exact ⟨_, List.mem_cons_self _ _, by rw [← h]; exact List.mem_cons_of_mem _ hcl⟩
        · exact ⟨l, List.mem_cons_of_mem _ h, hcl⟩

theorem map_trimSpace_split_cons_space (s : Str) (c : Char) (hc : isSpace c = true)
    (hn : c ≠ '\n') : (split (c :: s)).map trimSpace = (split s).map trimSpace := by
  simp [split, splitAux, hn, trimSpace_cons_space hc]

theorem last_newline (s : Str) :
    '\n' ∉ s ∨ ∃ a b, s = a ++ '\n' :: b ∧ '\n' ∉ b := by
  induction s with
  | nil => left; simp
  | cons d s ih =>
    rcases ih with h | ⟨a, b, hs, hb⟩
    · by_cases hd : d = '\n'
      · right; exact ⟨[], s, by simp [hd], h⟩
      · left
        intro hm
        rcases List.mem_cons.mp hm with e | e
        · exact hd e.symm
        · exact h e
    · right; exact ⟨d :: a, b, by simp [hs], hb⟩

theorem map_trimSpace_split_append_space (s : Str) (c : Char) (hc : isSpace c = true)
    (hn : c ≠ '\n') : (split (s ++ [c])).map trimSpace = (split s).map trimSpace := by
  have hnc : ∀ t : Str, '\n' ∉ t → '\n' ∉ t ++ [c] := by
    intro t ht hm
    rcases List.mem_append.mp hm with e | e
    · exact ht e
    · exact hn (List.mem_singleton.mp e).symm
  rcases last_newline s with h | ⟨a, b, hs, hb⟩
  · rw [split_of_no_newline _ h, split_of_no_newline _ (hnc s h)]
    simp [trimSpace_append_space hc]
  · have e : s ++ [c] = a ++ '\n' :: (b ++ [c]) := by simp [hs]
    rw [e, hs, split_append_newline, split_append_newline, split_of_no_newline _ hb,
      split_of_no_newline _ (hnc b hb)]
    simp [trimSpace_append_space hc]

theorem entrySeq_nil : entrySeq [] = [] := by
  simp [entrySeq, split, splitAux, trimSpace_nil]

theorem entrySeq_append_newline (a b : Str) :
    entrySeq (a ++ '\n' :: b) = entrySeq a ++ entrySeq b := by
  simp [entrySeq, split_append_newline]

theorem entrySeq_cons_space (s : Str) (c : Char) (hc : isSpace c = true) :
    entrySeq (c :: s) = entrySeq s := by
  by_cases hn : c = '\n'
  · have := entrySeq_append_newline [] s
    simpa [hn, entrySeq_nil] using this
  · simp only [entrySeq, map_trimSpace_split_cons_space s c hc hn]

theorem entrySeq_append_space (s : Str) (c : Char) (hc : isSpace c = true) :
    entrySeq (s ++ [c]) = entrySeq s := by
  by_cases hn : c = '\n'
  · have := entrySeq_append_newline s []
    simpa [hn, entrySeq_nil] using this
  · simp only [entrySeq, map_trimSpace_split_append_space s c hc hn]

theorem entrySeq_dropWhile (s : Str) : entrySeq (s.dropWhile isSpace) = entrySeq s := by
  induction s with
  | nil => rfl
  | cons c s ih =>
    by_cases hc : isSpace c = true
    · rw [List.dropWhile_cons_of_pos hc, ih, entrySeq_cons_space s c hc]
    · rw [List.dropWhile_cons_of_neg hc]

theorem entrySeq_rdropWhile (s : Str) : entrySeq (s.rdropWhile isSpace) = entrySeq s := by
  induction s using List.reverseRecOn with
  | nil => rfl
  | append_singleton s c ih =>
    by_cases hc : isSpace c = true
    · rw [List.rdropWhile_concat_pos _ _ _ hc, ih, entrySeq_append_space s c hc]
    · rw [List.rdropWhile_concat_neg _ _ _ hc]

theorem entrySeq_trimSpace (s : Str) : entrySeq (trimSpace s) = entrySeq s := by
  unfold trimSpace
  rw [entrySeq_rdropWhile, entrySeq_dropWhile]

theorem entrySeq_clean (s l : Str) (hl : l ∈ entrySeq s) :
    l ≠ [] ∧ '\n' ∉ l ∧ trimSpace l = l := by
  simp only [entrySeq, List.mem_filter, List.mem_map, decide_eq_true_eq] at hl
  obtain ⟨⟨x, hx, rfl⟩, hne⟩ := hl
  exact ⟨hne, fun hm => no_newline_of_mem_split s x hx (mem_of_mem_trimSpace hm),
    trimSpace_idem x⟩

theorem entrySeq_single (l : Str) (hne : l ≠ []) (hn : '\n' ∉ l) (ht : trimSpace l = l) :
    entrySeq l = [l] := by
  simp [entrySeq, split_of_no_newline l hn, ht, hne]

theorem entrySeq_join (v : List Str)
    (hv : ∀ l ∈ v, l ≠ [] ∧ '\n' ∉ l ∧ trimSpace l = l) : entrySeq (join v) = v := by
  induction v with
  | nil => exact entrySeq_nil
  | cons a v ih =>
    obtain ⟨h1, h2, h3⟩ := hv a (List.mem_cons_self _ _)
    cases v with
    | nil => exact entrySeq_single a h1 h2 h3
    | cons b v =>
      show entrySeq (a ++ '\n' :: join (b :: v)) = a :: b :: v
      rw [entrySeq_append_newline, entrySeq_single a h1 h2 h3,
        ih (fun l hl => hv l (List.mem_cons_of_mem _ hl))]
      rfl

theorem entrySeq_ne_nil (s : Str) (h : trimSpace s ≠ []) : entrySeq s ≠ [] := by
  have hex : ∃ c ∈ s, isSpace c ≠ true := by
    by_contra hcon
    push_neg at hcon
    exact h ((trimSpace_eq_nil_iff s).mpr hcon)
  obtain ⟨c, hc, hsp⟩ := hex
  have hn : c ≠ '\n' := fun e => hsp (e ▸ isSpace_newline)
  obtain ⟨l, hl, hcl⟩ := exists_mem_split s c hc hn
  have hne : trimSpace l ≠ [] := fun e => hsp ((trimSpace_eq_nil_iff l).mp e c hcl)
  intro he
  have : trimSpace l ∈ entrySeq s := by
    simp only [entrySeq, List.mem_filter, List.mem_map, decide_eq_true_eq]
    exact ⟨⟨l, hl, rfl⟩, hne⟩
  rw [he] at this
  exact absurd this (List.not_mem_nil _)

theorem entrySeq_eq_nil_of_trimSpace (s : Str) (h : trimSpace s = []) : entrySeq s = [] := by
  rw [← entrySeq_trimSpace, h, entrySeq_nil]

theorem collectValid_eq (jobs acc : List Str) :
    collectValid jobs acc = acc ++ (jobs.map trimSpace).filter (fun l => l ≠ []) := by
  induction jobs generalizing acc with
  | nil => simp [collectValid]
  | cons j jobs ih =>
    by_cases h : trimSpace j = []
    · simp [collectValid, h, ih]
    · simp [collectValid, h, ih]

theorem numberRows_append (a b : List Str) (i : Nat) :
    numberRows (a ++ b) i = numberRows a i ++ numberRows b (i + a.length) := by
  induction a generalizing i with
  | nil => simp [numberRows]
  | cons x a ih => simp [numberRows, ih, Nat.add_assoc, Nat.add_comm 1]

theorem length_numberRows (a : List Str) (i : Nat) : (numberRows a i).length = a.length := by
  induction a generalizing i with
  | nil => rfl
  | cons x a ih => simp [numberRows, ih]

theorem listLoop_eq (jobs : List Str) (count : Nat) (rows : List Row) :
    listLoop jobs count rows =
      (count + ((jobs.map trimSpace).filter (fun l => l ≠ [])).length,
        rows ++ numberRows ((jobs.map trimSpace).filter (fun l => l ≠ [])) count) := by
  induction jobs generalizing count rows with
  | nil => simp [listLoop, numberRows]
  | cons j jobs ih =>
    by_cases h : trimSpace j = []
    · simp [listLoop, h, ih]
    · simp [listLoop, h, ih, numberRows]
      omega

/-- The `validJobs` of `removeCronJob` are the entry sequence of the output. -/
theorem validJobs_eq (output : Str) :
    collectValid (split (trimSpace output)) [] = entrySeq output := by
  rw [collectValid_eq, List.nil_append]
  exact entrySeq_trimSpace output

theorem toLowerRune_eq_b (a : Char) (h : toLowerRune a = 'b') : a = 'b' ∨ a = 'B' := by
  unfold toLowerRune at h
  split at h <;> first
    | exact absurd h (by decide)
    | exact Or.inr rfl
    | exact Or.inl h

theorem atoi_of_lower_back (s : Str) (h : toLower s = "back".toList) : atoi s = none := by
  cases s with
  | nil => rfl
  | cons a rest =>
    have ha : toLowerRune a = 'b' := by
      have := congrArg List.head? h
      simpa [toLower] using this
    rcases toLowerRune_eq_b a ha with e | e <;> subst e <;>
      simp [atoi, parseUnsigned, parseDigits, digitVal]

theorem writes_append (a b : List Event) : writes (a ++ b) = writes a ++ writes b := by
  induction a with
  | nil => rfl
  | cons e a ih => cases e <;> simp [writes, ih]

theorem writes_listCronJobs (r : ReadResult) : writes (listCronJobs r) = [] := by
  unfold listCronJobs
  split
  · split <;> rfl
  · rfl

theorem writes_addPrompt (r : ReadResult) : writes (addPrompt r) = [] := by
  simp [addPrompt, writes_append, writes_listCronJobs, writes]

theorem numberRows_eq_zipWith (a : List Str) (i : Nat) :
    numberRows a i = List.zipWith Row.numbered (List.range' (i + 1) a.length) a := by
  induction a generalizing i with
  | nil => rfl
  | cons x a ih => simp [numberRows, ih, List.range'_succ]

theorem numberRows_zero (a : List Str) : numberRows a 0 = numberedFromOne a :=
  numberRows_eq_zipWith a 0

theorem mem_numberRows (a : List Str) (i n : Nat) (job : Str)
    (h : Row.numbered n job ∈ numberRows a i) : i < n ∧ a[n - i - 1]? = some job := by
  induction a generalizing i with
  | nil => simp [numberRows] at h
  | cons x a ih =>
    simp only [numberRows, List.mem_cons, Row.numbered.injEq] at h
    rcases h with ⟨hn, hj⟩ | h
    · subst hn; subst hj
      simp
    · obtain ⟨h1, h2⟩ := ih (i + 1) h
      refine ⟨by omega, ?_⟩
      have e : n - i - 1 = (n - (i + 1) - 1) + 1 := by omega
      rw [e, List.getElem?_cons_succ]
      exact h2

theorem take_append_drop_eq_eraseIdx (v : List Str) (n : Nat) (h : 1 ≤ n) :
    v.take (n - 1) ++ v.drop n = v.eraseIdx (n - 1) := by
  rw [List.eraseIdx_eq_take_drop_succ]
  have : n - 1 + 1 = n := by omega
  rw [this]

/-- After a successful read that holds an entry, `removeCronJob` shows the
numbered entries and goes on to the prompt. -/
theorem removeCronJob_ok (output : Str) (w : Option Str) (line : Str)
    (hE : entrySeq output ≠ []) :
    removeCronJob ⟨output, none⟩ w line =
      [Event.say "\n", Event.table "Remove Cron Jobs" (numberRows (entrySeq output) 0)] ++
        removeChoice (entrySeq output) w line := by
  have ht : trimSpace output ≠ [] := fun h => hE (entrySeq_eq_nil_of_trimSpace output h)
  have hl : (entrySeq output).length ≠ 0 := by
    simpa [List.length_eq_zero] using hE
  simp only [removeCronJob, ht, if_false, validJobs_eq, hl]

/-- After a successful read without an entry, `removeCronJob` shows the
placeholder row and returns. -/
theorem removeCronJob_empty (output : Str) (w : Option Str) (line : Str)
    (hE : entrySeq output = []) :
    removeCronJob ⟨output, none⟩ w line =
      [Event.say "\n", Event.table "Remove Cron Jobs" [Row.placeholder]] := by
  simp only [removeCronJob, validJobs_eq, hE, List.length_nil, if_true]
  split <;> rfl

theorem removeChoice_valid (v : List Str) (w : Option Str) (line : Str) (i : Int)
    (hi : atoi (trimSpace line) = some i) (h1 : 1 ≤ i) (h2 : i ≤ (v.length : Int)) :
    writes (removeChoice v w line) = [join (v.eraseIdx (i.toNat - 1))] := by
  have hb : toLower (trimSpace line) ≠ "back".toList := by
    intro hb
    rw [atoi_of_lower_back _ hb] at hi
    exact absurd hi (by simp)
  have hr : ¬ (i < 1 ∨ i > (v.length : Int)) := by omega
  have hn : 1 ≤ i.toNat := by omega
  simp only [removeChoice, hb, if_false, hi, hr, take_append_drop_eq_eraseIdx v _ hn]
  cases w <;> simp [writes_append, writes]

theorem removeChoice_invalid (v : List Str) (w : Option Str) (line : Str)
    (hb : toLower (trimSpace line) ≠ "back".toList)
    (hbad : ∀ i : Int, atoi (trimSpace line) = some i → ¬ (1 ≤ i ∧ i ≤ (v.length : Int))) :
    removeChoice v w line =
      [Event.say "\nEnter the number (#) of the job to remove.",
        Event.say "Enter 'back' to return to the main menu.", Event.say "\n> ",
        Event.say "Invalid choice!"] := by
  simp only [removeChoice, hb, if_false]
  cases ha : atoi (trimSpace line) with
  | none => rfl
  | some i =>
    have := hbad i ha
    have hr : i < 1 ∨ i > (v.length : Int) := by omega
    simp [hr]

theorem removeChoice_back (v : List Str) (w : Option Str) (line : Str)
    (hb : toLower (trimSpace line) = "back".toList) :
    removeChoice v w line =
      [Event.say "\nEnter the number (#) of the job to remove.",
        Event.say "Enter 'back' to return to the main menu.", Event.say "\n> "] := by
  simp only [removeChoice, hb, if_true]

theorem spellsBack_spec (word : Str) (h : spellsBack word = true) :
    toLower word = "back".toList ∧ trimSpace word = word := by
  match word, h with
  | [a, b, c, d], h =>
    simp only [spellsBack, Bool.and_eq_true, Bool.or_eq_true, beq_iff_eq] at h
    obtain ⟨⟨⟨ha, hb⟩, hc⟩, hd⟩ := h
    rcases ha with rfl | rfl <;> rcases hb with rfl | rfl <;> rcases hc with rfl | rfl <;>
      rcases hd with rfl | rfl <;> exact ⟨by decide, by decide⟩

theorem padded_back (pre word post : Str) (hpre : ∀ c ∈ pre, isSpace c = true)
    (hpost : ∀ c ∈ post, isSpace c = true) (hw : spellsBack word = true) :
    toLower (trimSpace (pre ++ word ++ post)) = "back".toList := by
  rw [trimSpace_pad pre post word hpre hpost, (spellsBack_spec word hw).2]
  exact (spellsBack_spec word hw).1

theorem readString_shape (s : Str) :
    ∃ body, '\n' ∉ body ∧ ((readString s).1 = body ∨ (readString s).1 = body ++ ['\n']) := by
  induction s with
  | nil => exact ⟨[], by simp, Or.inl rfl⟩
  | cons c s ih =>
    by_cases hc : c = '\n'
    · exact ⟨[], by simp, Or.inr (by simp [readString, hc])⟩
    · obtain ⟨body, hb, h⟩ := ih
      refine ⟨c :: body, ?_, ?_⟩
      · intro hm
        rcases List.mem_cons.mp hm with e | e
        · exact hc e.symm
        · exact hb e
      · rcases h with h | h
        · left; simp [readString, hc, h]
        · right; simp [readString, hc, h]

/-- A line read from the terminal holds no newline once it is trimmed. -/
theorem no_newline_trimSpace_readString (s : Str) : '\n' ∉ trimSpace (readString s).1 := by
  obtain ⟨body, hb, h | h⟩ := readString_shape s
  · rw [h]; exact fun hm => hb (mem_of_mem_trimSpace hm)
  · rw [h, trimSpace_append_space isSpace_newline]
    exact fun hm => hb (mem_of_mem_trimSpace hm)

theorem writes_addEntry (r : ReadResult) (w : Option Str) (cronJob cur : Str)
    (hcur : storeText r = some cur) :
    writes (addEntry r w cronJob) = [cur ++ '\n' :: cronJob] := by
  obtain ⟨output, err⟩ := r
  cases err with
  | none =>
    simp only [storeText, Option.some.injEq] at hcur
    subst hcur
    cases w <;> rfl
  | some e =>
    simp only [storeText] at hcur
    split at hcur
    · simp only [Option.some.injEq] at hcur
      subst hcur
      cases w <;> rfl
    · exact absurd hcur (by simp)

theorem addCronJob_entry (r : ReadResult) (w : Option Str) (line : Str) (rest : List Str)
    (hhelp : toLower (trimSpace line) ≠ "help".toList)
    (hback : toLower (trimSpace line) ≠ "back".toList) :
    addCronJob r w (line :: rest) = addPrompt r ++ addEntry r w (trimSpace line) := by
  simp only [addCronJob, addTurn, hhelp, hback, if_false]
  rfl

theorem addCronJob_back (r : ReadResult) (w : Option Str) (line : Str) (rest : List Str)
    (hback : toLower (trimSpace line) = "back".toList) :
    addCronJob r w (line :: rest) = addPrompt r := by
  have hhelp : toLower (trimSpace line) ≠ "help".toList := by
    rw [hback]; decide
  simp only [addCronJob, addTurn, hhelp, hback, if_false, if_true]
  rfl

theorem addCronJob_help (r : ReadResult) (w : Option Str) (line : Str) (rest : List Str)
    (hhelp : toLower (trimSpace line) = "help".toList) :
    addCronJob r w (line :: rest) =
      (addPrompt r ++ [Event.helpTables]) ++ addCronJob r w rest := by
  simp only [addCronJob, addTurn, hhelp, if_true]

theorem addCronJob_helps (r : ReadResult) (w : Option Str) (helps rest : List Str)
    (hh : ∀ h ∈ helps, toLower (trimSpace h) = "help".toList) :
    addCronJob r w (helps ++ rest) =
      (helps.flatMap fun _ => addPrompt r ++ [Event.helpTables]) ++ addCronJob r w rest := by
  induction helps with
  | nil => rfl
  | cons h helps ih =>
    rw [List.cons_append, addCronJob_help r w h _ (hh h (List.mem_cons_self _ _)),
      ih (fun x hx => hh x (List.mem_cons_of_mem _ hx))]
    simp [List.flatMap_cons]

theorem writes_helps (r : ReadResult) (helps : List Str) :
    writes (helps.flatMap fun _ => addPrompt r ++ [Event.helpTables]) = [] := by
  induction helps with
  | nil => rfl
  | cons h helps ih =>
    simp [List.flatMap_cons, writes_append, writes_addPrompt, ih, writes]

theorem writes_removeCronJob_back (r : ReadResult) (w : Option Str) (line : Str)
    (hb : toLower (trimSpace line) = "back".toList) : writes (removeCronJob r w line) = [] := by
  obtain ⟨output, err⟩ := r
  cases err with
  | some e =>
    simp only [removeCronJob]
    split <;> rfl
  | none =>
    by_cases hE : entrySeq output = []
    · rw [removeCronJob_empty output w line hE]; rfl
    · rw [removeCronJob_ok output w line hE, removeChoice_back _ w line hb]; rfl

theorem getElem?_numberRows (a : List Str) (i k : Nat) :
    (numberRows a i)[k]? = a[k]?.map (Row.numbered (i + k + 1)) := by
  induction a generalizing i k with
  | nil => simp [numberRows]
  | cons x a ih =>
    cases k with
    | zero => simp [numberRows]
    | succ k =>
      simp only [numberRows, List.getElem?_cons_succ, ih]
      have : i + 1 + k + 1 = i + (k + 1) + 1 := by omega
      rw [this]

theorem listRows_eq (output : Str) :
    listRows output =
      if entrySeq output = [] then [Row.placeholder] else numberRows (entrySeq output) 0 := by
  unfold listRows
  by_cases ht : trimSpace output = []
  · simp [ht, entrySeq_eq_nil_of_trimSpace output ht]
  · have hE := entrySeq_ne_nil output ht
    have hl : (entrySeq output).length ≠ 0 := by simpa [List.length_eq_zero] using hE
    have e : ((split (trimSpace output)).map trimSpace).filter (fun l => l ≠ []) =
        entrySeq output := entrySeq_trimSpace output
    simp only [ht, if_false, listLoop_eq, e, Nat.zero_add, hl, List.nil_append, hE]

theorem tables_append (a b : List Event) : tables (a ++ b) = tables a ++ tables b := by
  induction a with
  | nil => rfl
  | cons e a ih => cases e <;> simp [tables, ih]

theorem tables_removeChoice (v : List Str) (w : Option Str) (line : Str) :
    tables (removeChoice v w line) = [] := by
  unfold removeChoice
  simp only []
  split
  · rfl
  · split
    · rfl
    · split
      · rfl
      · cases w <;> rfl

theorem eraseIdx_length_append (a : List Str) (x : Str) :
    (a ++ [x]).eraseIdx a.length = a := by
  induction a with
  | nil => rfl
  | cons y a ih => simp [List.eraseIdx, ih]

/-- Removing the last entry from a store whose entry sequence is `es` followed
by one more entry writes a text whose entry sequence is `es`. -/
theorem remove_last (content : Str) (es : List Str) (x : Str) (w : Option Str) (line : Str)
    (hc : entrySeq content = es ++ [x])
    (hin : atoi (trimSpace line) = some ((es.length : Int) + 1)) :
    writes (removeCronJob ⟨content, none⟩ w line) = [join es] ∧ entrySeq (join es) = es := by
  have hne : entrySeq content ≠ [] := by rw [hc]; simp
  have h2 : (es.length : Int) + 1 ≤ ((entrySeq content).length : Int) := by
    rw [hc]; simp
  have hw := removeChoice_valid (entrySeq content) w line _ hin (by omega) h2
  have hpos : ((es.length : Int) + 1).toNat - 1 = es.length := by omega
  rw [hpos] at hw
  refine ⟨?_, ?_⟩
  · rw [removeCronJob_ok content w line hne, writes_append, hw, hc, eraseIdx_length_append]
    rfl
  · apply entrySeq_join
    intro l hl
    exact entrySeq_clean content l (by rw [hc]; exact List.mem_append_left _ hl)

theorem contains_eq_false_of_head_not_mem (s : Str) (c : Char) (rest : Str) (h : c ∉ s) :
    contains s (c :: rest) = false := by
  induction s with
  | nil => rfl
  | cons d s ih =>
    have hd : d ≠ c := fun e => h (by simp [e])
    have hs : c ∉ s := fun e => h (List.mem_cons_of_mem _ e)
    simp [contains, startsWith, hd, ih hs]

theorem digitChar_ne_n (n : Nat) : Nat.digitChar (n % 10) ≠ 'n' := by
  have h : n % 10 < 10 := Nat.mod_lt _ (by decide)
  generalize n % 10 = d at h
  interval_cases d <;> decide

theorem n_not_mem_toDigitsCore (fuel n : Nat) (ds : List Char) (h : 'n' ∉ ds) :
    'n' ∉ Nat.toDigitsCore 10 fuel n ds := by
  induction fuel generalizing n ds with
  | zero => exact h
  | succ fuel ih =>
    have hd : 'n' ∉ Nat.digitChar (n % 10) :: ds := by
      intro hm
      rcases List.mem_cons.mp hm with e | e
      · exact digitChar_ne_n n e.symm
      · exact h e
    simp only [Nat.toDigitsCore]
    split
    · exact hd
    · exact ih _ _ hd

/-- The error text of a non-zero exit status never holds `no crontab for`. -/
theorem noCrontab_exit_status (n : Nat) :
    noCrontab ("exit status ".toList ++ Nat.toDigits 10 n) = false := by
  apply contains_eq_false_of_head_not_mem
  intro hm
  rcases List.mem_append.mp hm with e | e
  · exact absurd e (by decide)
  · exact n_not_mem_toDigitsCore _ _ [] (by simp) e

theorem scanQuoted_of_no_quote (text acc : Str) (h : quote ∉ text) :
    scanQuoted text true acc = Piped.stdin (echoOut (acc.reverse ++ text)) := by
  induction text generalizing acc with
  | nil => simp [scanQuoted]
  | cons c text ih =>
    have hc : c ≠ quote := fun e => h (by simp [e])
    have ht : quote ∉ text := fun e => h (List.mem_cons_of_mem _ e)
    simp [scanQuoted, hc, ih _ ht]

theorem isEchoOption_of_newline (arg : Str) (h : '\n' ∈ arg) : isEchoOption arg = false := by
  unfold isEchoOption
  split
  · rename_i c cs
    rcases List.mem_cons.mp h with e | e
    · exact absurd e (by decide)
    · rw [Bool.eq_false_iff]
      intro hall
      have := List.all_eq_true.mp hall '\n' e
      exact absurd this (by decide)
  · rfl

/-- The store side of a write free of quotes: bash hands `crontab -` the text
and a newline, when the text holds a newline (as every text `addCronJob`
writes does). -/
theorem crontabStdin_of_no_quote (text : Str) (hq : quote ∉ text) (hn : '\n' ∈ text) :
    crontabStdin text = Piped.stdin (text ++ ['\n']) := by
  rw [crontabStdin, scanQuoted_of_no_quote text [] hq]
  simp [echoOut, isEchoOption_of_newline text hn]

/-- What `addCronJob` hands to the write command: for a store that answers, or
that reports no schedule and so counts as empty, and a line read from the terminal that is neither "help" nor "back",
`addCronJob` issues exactly one write: the text the store held, a newline and
the trimmed line `L`.  The entry sequence of that text is the entry sequence of
the store followed by `L` (by nothing when `L` is empty). -/
theorem addCronJob_appends (r : ReadResult) (cur : Str) (w : Option Str) (stdin : Str)
    (rest : List Str) (hcur : storeText r = some cur)
    (hhelp : toLower (trimSpace (readString stdin).1) ≠ "help".toList)
    (hback : toLower (trimSpace (readString stdin).1) ≠ "back".toList) :
    writes (addCronJob r w ((readString stdin).1 :: rest)) =
        [cur ++ '\n' :: trimSpace (readString stdin).1] ∧
      entrySeq (cur ++ '\n' :: trimSpace (readString stdin).1) =
        entrySeq cur ++
          (if trimSpace (readString stdin).1 = [] then []
            else [trimSpace (readString stdin).1]) := by
  refine ⟨?_, ?_⟩
  · rw [addCronJob_entry r w _ rest hhelp hback, writes_append, writes_addPrompt,
      writes_addEntry r w _ cur hcur]
    rfl
  · rw [entrySeq_append_newline]
    congr 1
    split
    · rename_i h
      rw [h, entrySeq_nil]
    · rename_i h
      exact entrySeq_single _ h (no_newline_trimSpace_readString stdin) (trimSpace_idem _)

/-- The table of `listCronJobs` for a read result the program takes for a
store that answers or holds no schedule: `listCronJobs` renders one table.  When the entry sequence `E` of the
store is not empty its rows are the `len(E)` entries, numbered `1..len(E)` in
the order of the store; when `E` is empty it is the one placeholder row.  `E` is
the lines of the output that are not blank, each one trimmed. -/
theorem listCronJobs_rows (r : ReadResult) (cur : Str) (hcur : storeText r = some cur) :
    tables (listCronJobs r) =
        [if entrySeq cur = [] then [Row.placeholder] else numberedFromOne (entrySeq cur)] ∧
      (numberedFromOne (entrySeq cur)).length = (entrySeq cur).length ∧
      (∀ k job, (entrySeq cur)[k]? = some job →
        (numberedFromOne (entrySeq cur))[k]? = some (Row.numbered (k + 1) job)) ∧
      entrySeq cur =
        ((split cur).filter (fun l => decide (trimSpace l ≠ []))).map trimSpace := by
  refine ⟨?_, ?_, ?_, ?_⟩
  · obtain ⟨output, err⟩ := r
    cases err with
    | none =>
      simp only [storeText, Option.some.injEq] at hcur
      subst hcur
      simp only [listCronJobs, tables, listRows_eq, numberRows_zero]
    | some e =>
      simp only [storeText] at hcur
      split at hcur
      · rename_i hn
        simp only [Option.some.injEq] at hcur
        subst hcur
        simp only [listCronJobs, hn, if_true, tables, entrySeq_nil]
      · exact absurd hcur (by simp)
  · rw [← numberRows_zero, length_numberRows]
  · intro k job hk
    rw [← numberRows_zero, getElem?_numberRows, hk]
    simp
  · simp only [entrySeq, List.filter_map]
    rfl

/-! ## The claims -/

/-- C1: after a successful read whose entry sequence `E` is not empty, for an
input that `Atoi` reads as an integer `i` with `1 ≤ i ≤ len(E)`, `removeCronJob`
issues exactly one write; the entry sequence of the text written is `E` with
its `i`-th element deleted, the others in their order, so `len(E) - 1` entries
remain. -/
theorem removeCronJob_deletes_chosen (output : Str) (w : Option Str) (line : Str) (i : Int)
    (hE : entrySeq output ≠ []) (hi : atoi (trimSpace line) = some i)
    (h1 : 1 ≤ i) (h2 : i ≤ ((entrySeq output).length : Int)) :
    writes (removeCronJob ⟨output, none⟩ w line) =
        [join ((entrySeq output).eraseIdx (i.toNat - 1))] ∧
      entrySeq (join ((entrySeq output).eraseIdx (i.toNat - 1))) =
        (entrySeq output).eraseIdx (i.toNat - 1) ∧
      ((entrySeq output).eraseIdx (i.toNat - 1)).length = (entrySeq output).length - 1 := by
  refine ⟨?_, ?_, ?_⟩
  · rw [removeCronJob_ok output w line hE, writes_append,
      removeChoice_valid _ w line i hi h1 h2]
    rfl
  · apply entrySeq_join
    intro l hl
    exact entrySeq_clean output l ((List.eraseIdx_sublist _ _).subset hl)
  · rw [List.length_eraseIdx]
    have : i.toNat - 1 < (entrySeq output).length := by omega
    simp [this]

/-- C1, on the scenario of the specification: two entries, input `1`. -/
theorem removeCronJob_deletes_chosen_witness :
    writes (removeCronJob ⟨"0 * * * * echo hi\n0 0 * * * backup.sh\n".toList, none⟩ none
        "1\n".toList) =
        [join ((entrySeq "0 * * * * echo hi\n0 0 * * * backup.sh\n".toList).eraseIdx
          ((1 : Int).toNat - 1))] ∧
      entrySeq (join ((entrySeq "0 * * * * echo hi\n0 0 * * * backup.sh\n".toList).eraseIdx
          ((1 : Int).toNat - 1))) =
        (entrySeq "0 * * * * echo hi\n0 0 * * * backup.sh\n".toList).eraseIdx
          ((1 : Int).toNat - 1) ∧
      ((entrySeq "0 * * * * echo hi\n0 0 * * * backup.sh\n".toList).eraseIdx
          ((1 : Int).toNat - 1)).length =
        (entrySeq "0 * * * * echo hi\n0 0 * * * backup.sh\n".toList).length - 1 :=
  removeCronJob_deletes_chosen "0 * * * * echo hi\n0 0 * * * backup.sh\n".toList none
    "1\n".toList 1 (by decide) (by decide) (by decide) (by decide)

/-- C4: after a successful read whose entry sequence `E` is not empty, for an
input that is not the word "back" and that `Atoi` does not read as an integer
within `[1, len(E)]`, `removeCronJob` says "Invalid choice!" and issues no
write. -/
theorem removeCronJob_rejects_bad_choice (output : Str) (w : Option Str) (line : Str)
    (hE : entrySeq output ≠ [])
    (hb : toLower (trimSpace line) ≠ "back".toList)
    (hbad : ∀ i : Int, atoi (trimSpace line) = some i →
      ¬ (1 ≤ i ∧ i ≤ ((entrySeq output).length : Int))) :
    writes (removeCronJob ⟨output, none⟩ w line) = [] ∧
      removeCronJob ⟨output, none⟩ w line =
        [Event.say "\n", Event.table "Remove Cron Jobs" (numberRows (entrySeq output) 0),
          Event.say "\nEnter the number (#) of the job to remove.",
          Event.say "Enter 'back' to return to the main menu.", Event.say "\n> ",
          Event.say "Invalid choice!"] := by
  have h := removeCronJob_ok output w line hE
  rw [removeChoice_invalid _ w line hb hbad] at h
  rw [h]
  exact ⟨rfl, rfl⟩

/-- C4, on the scenario of the specification: two entries, input `99`. -/
theorem removeCronJob_rejects_bad_choice_witness :
    writes (removeCronJob ⟨"0 * * * * echo hi\n0 0 * * * backup.sh\n".toList, none⟩ none
        "99\n".toList) = [] ∧
      removeCronJob ⟨"0 * * * * echo hi\n0 0 * * * backup.sh\n".toList, none⟩ none
          "99\n".toList =
        [Event.say "\n",
          Event.table "Remove Cron Jobs"
            (numberRows (entrySeq "0 * * * * echo hi\n0 0 * * * backup.sh\n".toList) 0),
          Event.say "\nEnter the number (#) of the job to remove.",
          Event.say "Enter 'back' to return to the main menu.", Event.say "\n> ",
          Event.say "Invalid choice!"] :=
  removeCronJob_rejects_bad_choice "0 * * * * echo hi\n0 0 * * * backup.sh\n".toList none
    "99\n".toList (by decide) (by decide)
    (fun i hi => by
      have e : atoi (trimSpace "99\n".toList) = some 99 := by decide
      rw [e] at hi
      cases hi
      decide)

/-- C3 (what the code does): when the read fails, whatever the reason,
`addCronJob` does not stop; it takes the store to be empty and writes a newline
and the new line, replacing what the store held. -/
theorem addCronJob_writes_after_failed_read (output e : Str) (w : Option Str)
    (line : Str) (rest : List Str) (hfail : noCrontab e = false)
    (hhelp : toLower (trimSpace line) ≠ "help".toList)
    (hback : toLower (trimSpace line) ≠ "back".toList) :
    storeText ⟨output, some e⟩ = none ∧
      writes (addCronJob ⟨output, some e⟩ w (line :: rest)) = ['\n' :: trimSpace line] := by
  refine ⟨by simp [storeText, hfail], ?_⟩
  rw [addCronJob_entry _ w line rest hhelp hback, writes_append, writes_addPrompt]
  cases w <;> rfl

/-- C3, at a read that failed with `exit status 2`. -/
theorem addCronJob_writes_after_failed_read_witness :
    storeText ⟨[], some "exit status 2".toList⟩ = none ∧
      writes (addCronJob ⟨[], some "exit status 2".toList⟩ none
        ("0 * * * * date\n".toList :: [])) = ['\n' :: trimSpace "0 * * * * date\n".toList] :=
  addCronJob_writes_after_failed_read [] "exit status 2".toList none
    "0 * * * * date\n".toList [] (by decide) (by decide) (by decide)

/-- C5: a spelling of "back" in capitals and small letters, with white space
around it, issues no write at the add prompt (also after any number of "help"
lines) or at the remove prompt; `addCronJob` returns after the prompt, and what
is left of the terminal input is not read. -/
theorem back_issues_no_write (r : ReadResult) (w : Option Str) (pre word post : Str)
    (helps rest : List Str) (hpre : ∀ c ∈ pre, isSpace c = true)
    (hpost : ∀ c ∈ post, isSpace c = true) (hw : spellsBack word = true)
    (hh : ∀ h ∈ helps, toLower (trimSpace h) = "help".toList) :
    writes (addCronJob r w (helps ++ (pre ++ word ++ post) :: rest)) = [] ∧
      addCronJob r w (helps ++ (pre ++ word ++ post) :: rest) =
        (helps.flatMap fun _ => addPrompt r ++ [Event.helpTables]) ++ addPrompt r ∧
      writes (removeCronJob r w (pre ++ word ++ post)) = [] := by
  have hb := padded_back pre word post hpre hpost hw
  have e := addCronJob_helps r w helps ((pre ++ word ++ post) :: rest) hh
  rw [addCronJob_back r w _ rest hb] at e
  refine ⟨?_, e, writes_removeCronJob_back r w _ hb⟩
  rw [e, writes_append, writes_helps, writes_addPrompt]
  rfl

/-- C5, at the input ` BaCk` after one `help` line, on a store with one entry. -/
theorem back_issues_no_write_witness :
    writes (addCronJob ⟨"0 * * * * date\n".toList, none⟩ none
        (["help\n".toList] ++ (" ".toList ++ "BaCk".toList ++ "\n".toList) :: [])) = [] ∧
      addCronJob ⟨"0 * * * * date\n".toList, none⟩ none
          (["help\n".toList] ++ (" ".toList ++ "BaCk".toList ++ "\n".toList) :: []) =
        (["help\n".toList].flatMap fun _ =>
            addPrompt ⟨"0 * * * * date\n".toList, none⟩ ++ [Event.helpTables]) ++
          addPrompt ⟨"0 * * * * date\n".toList, none⟩ ∧
      writes (removeCronJob ⟨"0 * * * * date\n".toList, none⟩ none
        (" ".toList ++ "BaCk".toList ++ "\n".toList)) = [] :=
  back_issues_no_write ⟨"0 * * * * date\n".toList, none⟩ none " ".toList "BaCk".toList
    "\n".toList ["help\n".toList] [] (by decide) (by decide) (by decide) (by decide)

/-- C7 fails: on a store holding one entry, a line of blanks makes `addCronJob`
issue a write. -/
theorem addCronJob_blank_line_writes :
    trimSpace "  \n".toList = [] ∧
      writes (addCronJob ⟨"0 * * * * date\n".toList, none⟩ none ["  \n".toList]) =
        ["0 * * * * date\n\n".toList] := by
  decide

/-- C7, amended: `addCronJob` treats every line that is neither "help" nor
"back" as a new entry, the empty line included.  For a store that answers or
reports no schedule, an empty or blank line causes exactly one write, of the
text the store held followed by a newline; the entry sequence of that text is
the entry sequence of the store. -/
theorem addCronJob_blank_line (r : ReadResult) (cur : Str) (w : Option Str) (line : Str)
    (rest : List Str) (hcur : storeText r = some cur) (hblank : trimSpace line = []) :
    writes (addCronJob r w (line :: rest)) = [cur ++ ['\n']] ∧
      entrySeq (cur ++ ['\n']) = entrySeq cur := by
  have hhelp : toLower (trimSpace line) ≠ "help".toList := by rw [hblank]; decide
  have hback : toLower (trimSpace line) ≠ "back".toList := by rw [hblank]; decide
  refine ⟨?_, entrySeq_append_space cur '\n' isSpace_newline⟩
  rw [addCronJob_entry r w line rest hhelp hback, writes_append, writes_addPrompt,
    writes_addEntry r w _ cur hcur, hblank]
  rfl

/-- C7, amended, at a line of blanks on a store with one entry. -/
theorem addCronJob_blank_line_witness :
    writes (addCronJob ⟨"0 * * * * date\n".toList, none⟩ none ("  \n".toList :: [])) =
        ["0 * * * * date\n".toList ++ ['\n']] ∧
      entrySeq ("0 * * * * date\n".toList ++ ['\n']) = entrySeq "0 * * * * date\n".toList :=
  addCronJob_blank_line ⟨"0 * * * * date\n".toList, none⟩ "0 * * * * date\n".toList none
    "  \n".toList [] (by decide) (by decide)

/-- C9: after a successful read `listCronJobs` and `removeCronJob` render the
same rows, the numbered `validJobs` when there is an entry; and when the
listing shows a row numbered `n` for an entry, the input `n` makes
`removeCronJob` write the entries without the one at place `n`, which is that
entry. -/
theorem list_and_remove_agree (output : Str) (w : Option Str) (line : Str) :
    tables (listCronJobs ⟨output, none⟩) = tables (removeCronJob ⟨output, none⟩ w line) ∧
      (collectValid (split (trimSpace output)) [] ≠ [] →
        tables (listCronJobs ⟨output, none⟩) =
          [numberRows (collectValid (split (trimSpace output)) []) 0]) ∧
      ∀ rows n job, rows ∈ tables (listCronJobs ⟨output, none⟩) →
        Row.numbered n job ∈ rows → atoi (trimSpace line) = some (n : Int) →
        ∃ pos, pos + 1 = n ∧
          (collectValid (split (trimSpace output)) [])[pos]? = some job ∧
          writes (removeCronJob ⟨output, none⟩ w line) =
            [join ((collectValid (split (trimSpace output)) []).eraseIdx pos)] := by
  rw [validJobs_eq]
  have hlist : tables (listCronJobs ⟨output, none⟩) =
      [if entrySeq output = [] then [Row.placeholder] else numberRows (entrySeq output) 0] := by
    simp only [listCronJobs, tables, listRows_eq]
  by_cases hE : entrySeq output = []
  · rw [hlist, removeCronJob_empty output w line hE]
    simp only [hE, if_true]
    refine ⟨rfl, fun h => absurd rfl h, ?_⟩
    intro rows n job hrows hrow
    rw [List.mem_singleton] at hrows
    subst hrows
    simp at hrow
  · rw [hlist, removeCronJob_ok output w line hE]
    simp only [hE, if_false]
    refine ⟨?_, fun _ => trivial, ?_⟩
    · rw [tables_append, tables_removeChoice]
      rfl
    · intro rows n job hrows hrow hin
      rw [List.mem_singleton] at hrows
      subst hrows
      obtain ⟨hpos, hget⟩ := mem_numberRows _ 0 n job hrow
      have hlt : n - 0 - 1 < (entrySeq output).length := by
        by_contra hcon
        rw [List.getElem?_eq_none (by omega)] at hget
        exact absurd hget (by simp)
      refine ⟨n - 1, by omega, by simpa using hget, ?_⟩
      rw [writes_append, removeChoice_valid _ w line n hin (by omega) (by omega)]
      simp [writes]

/-- C9, on a store of two entries: the row numbered 2 and the input `2`. -/
theorem list_and_remove_agree_witness :
    ∃ pos, pos + 1 = 2 ∧
      (collectValid (split (trimSpace "0 * * * * date\n0 0 * * * backup.sh\n".toList)) [])[pos]? =
        some "0 0 * * * backup.sh".toList ∧
      writes (removeCronJob ⟨"0 * * * * date\n0 0 * * * backup.sh\n".toList, none⟩ none
          "2\n".toList) =
        [join ((collectValid
          (split (trimSpace "0 * * * * date\n0 0 * * * backup.sh\n".toList)) []).eraseIdx pos)] :=
  (list_and_remove_agree "0 * * * * date\n0 0 * * * backup.sh\n".toList none "2\n".toList).2.2
    [Row.numbered 1 "0 * * * * date".toList, Row.numbered 2 "0 0 * * * backup.sh".toList]
    2 "0 0 * * * backup.sh".toList (by decide) (by decide) (by decide)

/-- C10: when the trimmed read output is not empty, a line outlives the
per-line trim and the blank-line filter, so `count == 0` in `listCronJobs` and
`len(validJobs) == 0` in `removeCronJob` are false where they are tested. -/
theorem placeholder_after_loop_unreachable (output : Str) (h : trimSpace output ≠ []) :
    ((split (trimSpace output)).map trimSpace).filter (fun l => decide (l ≠ [])) ≠ [] ∧
      (listLoop (split (trimSpace output)) 0 []).1 ≠ 0 ∧
      (collectValid (split (trimSpace output)) []).length ≠ 0 := by
  have hE := entrySeq_ne_nil output h
  have e : ((split (trimSpace output)).map trimSpace).filter (fun l => decide (l ≠ [])) =
      entrySeq output := entrySeq_trimSpace output
  have hl : (entrySeq output).length ≠ 0 := by simpa [List.length_eq_zero] using hE
  refine ⟨by rw [e]; exact hE, ?_, ?_⟩
  · rw [listLoop_eq, e]
    simpa using hE
  · rw [validJobs_eq]
    exact hl

/-- C10, on an output with blank lines around one entry. -/
theorem placeholder_after_loop_unreachable_witness :
    ((split (trimSpace "\n  \n0 * * * * date \n\n".toList)).map trimSpace).filter
        (fun l => decide (l ≠ [])) ≠ [] ∧
      (listLoop (split (trimSpace "\n  \n0 * * * * date \n\n".toList)) 0 []).1 ≠ 0 ∧
      (collectValid (split (trimSpace "\n  \n0 * * * * date \n\n".toList)) []).length ≠ 0 :=
  placeholder_after_loop_unreachable "\n  \n0 * * * * date \n\n".toList (by decide)

/-- C2 (what the code does): the line is put into `echo '%s' | crontab -` as it
is.  On a store holding `0 * * * * date`, the line `0 * * * * echo 'Hello'` of
the example table gives a command line in which the quotes of the line end and
reopen the quoting, and `crontab -` is handed `0 * * * * echo Hello`: the store
does not hold the line.  With the line `0 * * * * echo it's` a quote is left
open and nothing is handed to `crontab -`. -/
theorem addCronJob_quoted_line_store :
    writes (addCronJob ⟨"0 * * * * date\n".toList, none⟩ none
        ["0 * * * * echo 'Hello'\n".toList]) =
        ["0 * * * * date\n\n0 * * * * echo 'Hello'".toList] ∧
      writeCommand "0 * * * * date\n\n0 * * * * echo 'Hello'".toList =
        "echo '0 * * * * date\n\n0 * * * * echo 'Hello'' | crontab -".toList ∧
      crontabStdin "0 * * * * date\n\n0 * * * * echo 'Hello'".toList =
        Piped.stdin "0 * * * * date\n\n0 * * * * echo Hello\n".toList ∧
      entrySeq "0 * * * * date\n\n0 * * * * echo Hello\n".toList ≠
        entrySeq "0 * * * * date\n".toList ++ [trimSpace "0 * * * * echo 'Hello'\n".toList] ∧
      writes (addCronJob ⟨"0 * * * * date\n".toList, none⟩ none
        ["0 * * * * echo it's\n".toList]) =
        ["0 * * * * date\n\n0 * * * * echo it's".toList] ∧
      crontabStdin "0 * * * * date\n\n0 * * * * echo it's".toList = Piped.unterminated := by
  decide

/-- C6 (what the code does): when `crontab -l` ends with a non-zero exit
status, as it does with status 1 and `no crontab for <user>` on its standard
error for a user without a schedule, the error text is `exit status N`; the
test for `no crontab for` fails, and `listCronJobs` prints the error and renders
no table, so no placeholder row. -/
theorem listCronJobs_nonzero_exit (p : Run) (h : p.status ≠ 0) :
    listCronJobs (cmdOutput p) =
        [Event.say ("Error fetching cron jobs: " ++
          String.mk ("exit status ".toList ++ Nat.toDigits 10 p.status))] ∧
      tables (listCronJobs (cmdOutput p)) = [] := by
  have e : listCronJobs (cmdOutput p) =
      [Event.say ("Error fetching cron jobs: " ++
        String.mk ("exit status ".toList ++ Nat.toDigits 10 p.status))] := by
    simp only [listCronJobs, cmdOutput, h, if_false, noCrontab_exit_status]
    rfl
  exact ⟨e, by rw [e]; rfl⟩

/-- C6, for a user without a schedule: status 1, `no crontab for root` on the
standard error, nothing on the standard output. -/
theorem listCronJobs_nonzero_exit_witness :
    listCronJobs (cmdOutput ⟨[], "no crontab for root\n".toList, 1⟩) =
        [Event.say "Error fetching cron jobs: exit status 1"] ∧
      tables (listCronJobs (cmdOutput ⟨[], "no crontab for root\n".toList, 1⟩)) = [] :=
  ⟨(listCronJobs_nonzero_exit ⟨[], "no crontab for root\n".toList, 1⟩ (by decide)).1.trans
      (by decide),
    (listCronJobs_nonzero_exit ⟨[], "no crontab for root\n".toList, 1⟩ (by decide)).2⟩

/-- C8 (what the code does): on a store whose one entry is
`0 * * * * echo 'Hello'`, adding `0 * * * * date` hands `crontab -` a text in
which the entry has lost its quotes; `removeCronJob`, run on that store with
the input `2`, writes `0 * * * * echo Hello`, whose entry sequence is not the
one the store had before the add. -/
theorem add_then_remove_last_quoted :
    entrySeq "0 * * * * echo 'Hello'\n".toList = ["0 * * * * echo 'Hello'".toList] ∧
      writes (addCronJob ⟨"0 * * * * echo 'Hello'\n".toList, none⟩ none
        ["0 * * * * date\n".toList]) =
        ["0 * * * * echo 'Hello'\n\n0 * * * * date".toList] ∧
      crontabStdin "0 * * * * echo 'Hello'\n\n0 * * * * date".toList =
        Piped.stdin "0 * * * * echo Hello\n\n0 * * * * date\n".toList ∧
      writes (removeCronJob ⟨"0 * * * * echo Hello\n\n0 * * * * date\n".toList, none⟩ none
        "2\n".toList) = ["0 * * * * echo Hello".toList] ∧
      entrySeq "0 * * * * echo Hello".toList ≠ entrySeq "0 * * * * echo 'Hello'\n".toList := by
  decide

end CronManager
